import Mathlib

/-!
# Model of `src/multiexp.rs` (bellman): Pippenger multi-scalar multiplication

The curve group is modelled as an additive commutative monoid `G` with
decidable equality; `0 : G` models the point at infinity (the identity), and
`n • g` models scalar multiplication.  Scalar representations
(`PrimeFieldRepr`) are modelled as `Nat`; the source's low-word extraction
`repr.as_ref()[0]` is `· % 2 ^ 64` and the `u64` shift `1 << c` masks the
shift amount to six bits, so the digit modulus is `2 ^ (c % 64)`.
Fallible operations return `Except SynthesisError`; the entry point's
`assert!` is modelled by an `Option` layer (`none` is the halted program).
The worker pool is modelled by evaluating each window's task in place, with
`join` taking the left result first.
-/

deriving instance DecidableEq for Except

/-- Error type of the source: `SourceExhausted` models the
`io::ErrorKind::UnexpectedEof` error wrapped into `SynthesisError`, and
`unexpectedIdentity` models `SynthesisError::UnexpectedIdentity`. -/
inductive SynthesisError where
  | sourceExhausted
  | unexpectedIdentity
deriving DecidableEq

/-- The in-memory base source `(Arc<Vec<G>>, usize)`: a shared list of affine
points together with a cursor position. -/
structure Src (G : Type) where
  bases : List G
  pos : Nat
deriving DecidableEq

section SourceOps

variable {G : Type} [AddCommMonoid G] [DecidableEq G]

/-- Model of `SourceBuilder::new` for `(Arc<Vec<G>>, usize)`: clones the shared vector
and keeps the stored starting offset. -/
def Src.new (s : Src G) : Src G := ⟨s.bases, s.pos⟩

/-- Model of `Source::add_assign_mixed` for `(Arc<Vec<G>>, usize)`: errors if the
cursor is at or past the end, errors if the next point is the identity,
otherwise mixed-adds the next point into the accumulator (the source's `to`
argument) and advances the cursor. -/
def Src.addAssignMixed (s : Src G) (acc : G) : Except SynthesisError (G × Src G) :=
  if s.bases.length ≤ s.pos then .error .sourceExhausted
  else if s.bases.getD s.pos 0 = 0 then .error .unexpectedIdentity
  else .ok (acc + s.bases.getD s.pos 0, ⟨s.bases, s.pos + 1⟩)

/-- Model of `Source::skip` for `(Arc<Vec<G>>, usize)`: the source checks only whether
the cursor is already at or past the end (`self.0.len() <= self.1`) and then
adds `amt` to the cursor. -/
def Src.skip (s : Src G) (amt : Nat) : Except SynthesisError (Src G) :=
  if s.bases.length ≤ s.pos then .error .sourceExhausted
  else .ok ⟨s.bases, s.pos + amt⟩

end SourceOps

/-- Model of `DensityTracker`: a bit vector plus a running count of set bits. -/
structure DensityTracker where
  bv : List Bool
  total_density : Nat
deriving DecidableEq

/-- Model of `DensityTracker::new`. -/
def DensityTracker.new : DensityTracker := ⟨[], 0⟩

/-- Model of `DensityTracker::add_element`: pushes an unset bit. -/
def DensityTracker.add_element (t : DensityTracker) : DensityTracker :=
  ⟨t.bv ++ [false], t.total_density⟩

/-- Model of `DensityTracker::inc`: reads bit `idx` (`.get(idx).unwrap()` panics when
out of bounds, modelled by `none`); if the bit is unset it is set and the
total density is incremented, otherwise nothing changes. -/
def DensityTracker.inc (t : DensityTracker) (idx : Nat) : Option DensityTracker :=
  match t.bv[idx]? with
  | none => none
  | some b =>
    if !b then some ⟨t.bv.set idx true, t.total_density + 1⟩
    else some t

/-- Model of `DensityTracker::get_total_density`. -/
def DensityTracker.get_total_density (t : DensityTracker) : Nat := t.total_density

/-- The two `QueryDensity` implementations used with `multiexp`:
`FullDensity` (every slot active, no known size) and a `DensityTracker`. -/
inductive DensityMap where
  | full
  | tracker (t : DensityTracker)
deriving DecidableEq

/-- Model of `QueryDensity::get_query_size`: `None` for `FullDensity`, the bit-vector
length for a tracker. -/
def DensityMap.get_query_size : DensityMap → Option Nat
  | .full => none
  | .tracker t => some t.bv.length

/-- The pairs produced by `exponents.iter().zip(density_map.as_ref().iter())`:
zipping with `iter::repeat(true)` keeps every exponent, zipping with the
tracker's bits truncates to the shorter of the two. -/
def pairsOf (d : DensityMap) (exponents : List Nat) : List (Nat × Bool) :=
  match d with
  | .full => exponents.map (fun e => (e, true))
  | .tracker t => exponents.zip t.bv

section Algorithm

variable {G : Type} [AddCommMonoid G] [DecidableEq G]

/-- The bucket-scan loop of `multiexp_inner` (`for (&exp, density) in ...`):
threads the accumulator, the bucket vector and the base source through the
pairs.  The digit is `exp.as_ref()[0] % (1 << c)` after `exp.shr(skip)`,
i.e. the low 64-bit word of the shifted exponent reduced mod `2 ^ (c % 64)`
(the `u64` shift masks its amount to six bits). -/
def windowLoop (sk c : Nat) (handle_trivial : Bool) :
    List (Nat × Bool) → G → List G → Src G → Except SynthesisError (G × List G × Src G)
  | [], acc, buckets, src => .ok (acc, buckets, src)
  | (e, dens) :: rest, acc, buckets, src =>
    if dens then
      if e = 0 then
        match src.skip 1 with
        | .error err => .error err
        | .ok src' => windowLoop sk c handle_trivial rest acc buckets src'
      else if e = 1 then
        if handle_trivial then
          match src.addAssignMixed acc with
          | .error err => .error err
          | .ok (acc', src') => windowLoop sk c handle_trivial rest acc' buckets src'
        else
          match src.skip 1 with
          | .error err => .error err
          | .ok src' => windowLoop sk c handle_trivial rest acc buckets src'
      else
        let d := ((e >>> sk) % 2 ^ 64) % 2 ^ (c % 64)
        if d ≠ 0 then
          match src.addAssignMixed (buckets.getD (d - 1) 0) with
          | .error err => .error err
          | .ok (b', src') =>
            windowLoop sk c handle_trivial rest acc (buckets.set (d - 1) b') src'
        else
          match src.skip 1 with
          | .error err => .error err
          | .ok src' => windowLoop sk c handle_trivial rest acc buckets src'
    else windowLoop sk c handle_trivial rest acc buckets src

/-- The summation-by-parts loop of `multiexp_inner`: iterate the buckets in
reverse, adding each bucket into a running sum and the running sum into the
accumulator. -/
def sumByParts (buckets : List G) (acc : G) : G :=
  (buckets.reverse.foldl (fun (st : G × G) b => (st.1 + b, st.2 + (st.1 + b))) (0, acc)).2

/-- One window's task (the closure passed to `pool.compute`): scan the pairs
into `2 ^ (c % 64) - 1` buckets (`vec![zero; (1 << c) - 1]`, `usize` shift
masked), then reduce by summation by parts. -/
def multiexpWindow (src : Src G) (pairs : List (Nat × Bool)) (sk c : Nat)
    (handle_trivial : Bool) : Except SynthesisError G :=
  match windowLoop sk c handle_trivial pairs 0 (List.replicate (2 ^ (c % 64) - 1) 0) src with
  | .error err => .error err
  | .ok (acc, buckets, _) => .ok (sumByParts buckets acc)

/-- The statement `higher.double()` executed `c` times. -/
def doubleTimes : Nat → G → G
  | 0, g => g
  | n + 1, g => doubleTimes n (g + g)

/-- Model of `multiexp_inner`: computes this window with a fresh source
(`bases.new()`), and if a more significant region exists
(`skip + c < NUM_BITS`) joins it with the recursive call
(`handle_trivial = false`), doubling the higher result `c` times before
adding this window's result.  `numBits` models `Fr::NUM_BITS`.  The source
recurses forever when `c = 0`; that branch (never reached from the public
entry point) is cut off and returns the current window. -/
def multiexpInner (numBits : Nat) (bases : Src G) (density_map : DensityMap)
    (exponents : List Nat) (sk c : Nat) (handle_trivial : Bool) :
    Except SynthesisError G :=
  if _h1 : numBits ≤ sk + c then
    multiexpWindow (Src.new bases) (pairsOf density_map exponents) sk c handle_trivial
  else if _h2 : c = 0 then
    multiexpWindow (Src.new bases) (pairsOf density_map exponents) sk c handle_trivial
  else
    (multiexpWindow (Src.new bases) (pairsOf density_map exponents) sk c handle_trivial).bind
      fun t =>
        (multiexpInner numBits bases density_map exponents (sk + c) c false).map
          fun higher => doubleTimes c higher + t
termination_by numBits - sk
decreasing_by omega

/-- The ratio `e18 / 10 ^ 18` is a rational approximation of Euler's number `e`
(`⌊e · 10 ^ 18⌋`), used to model the source's `f64` natural logarithm. -/
def e18 : Nat := 2718281828459045235

/-- Bounded search for the least `k ≥ start` with `n ≤ e ^ k`, comparing
against the rational approximation `e18 / 10 ^ 18`. -/
def lnCeilAux (n : Nat) : Nat → Nat → Nat
  | 0, k => k
  | fuel + 1, k => if n * (10 ^ 18) ^ k ≤ e18 ^ k then k else lnCeilAux n fuel (k + 1)

/-- Model of `(n as f64).ln().ceil() as u32` for `1 ≤ n < 2 ^ 32`: the least
`k` with `n ≤ e ^ k` (for such `n` the `f64` rounding error of `ln`, far
below `10 ^ -13`, cannot move the ceiling because `ln n` is never that close
to an integer). -/
def lnCeil (n : Nat) : Nat := lnCeilAux n 64 0

/-- The window-width heuristic of `multiexp`: `3` when fewer than 32
exponents, otherwise the ceiling of the natural log of the length
(`exponents.len() as u32` truncates mod `2 ^ 32`). -/
def multiexpC (n : Nat) : Nat :=
  if n < 32 then 3 else lnCeil (n % 2 ^ 32)

/-- The public entry point `multiexp`: chooses the window width, asserts the
density map's query size (when known) against the exponent count — `none`
models the `assert!` failure — and calls `multiexp_inner` with `skip = 0`
and `handle_trivial = true`. -/
def multiexp (numBits : Nat) (bases : Src G) (density_map : DensityMap)
    (exponents : List Nat) : Option (Except SynthesisError G) :=
  let c := multiexpC exponents.length
  match density_map.get_query_size with
  | some query_size =>
    if query_size = exponents.length then
      some (multiexpInner numBits bases density_map exponents 0 c true)
    else none
  | none => some (multiexpInner numBits bases density_map exponents 0 c true)

end Algorithm

/-- Number of window tasks `multiexp_inner` schedules, following its
recursion: one for the current region plus one per further recursive call. -/
def numWindows (numBits sk c : Nat) : Nat :=
  if _h1 : numBits ≤ sk + c then 1
  else if _h2 : c = 0 then 1
  else 1 + numWindows numBits (sk + c) c
termination_by numBits - sk
decreasing_by omega

/-! ## Specification-side values -/

section SpecDefs

variable {G : Type} [AddCommMonoid G] [DecidableEq G]

/-- Truncating multi-scalar multiplication `Σ eᵢ • bᵢ` over two lists. -/
def msm : List Nat → List G → G
  | e :: es, b :: bs => e • b + msm es bs
  | _, _ => 0

/-- Naive multi-scalar multiplication, stated from the specification:
multiply each base by its scalar and sum the results. -/
def naiveMultiexp (exponents : List Nat) (bases : List G) : G :=
  (List.zipWith (fun e b => e • b) exponents bases).sum

/-- Weighted sum with ascending weights `k, k+1, …` over a list. -/
def wSumAsc : List G → Nat → G
  | [], _ => 0
  | b :: rest, k => k • b + wSumAsc rest (k + 1)

/-- Weighted sum with descending weights `len, …, 2, 1` over a list. -/
def wSumDesc : List G → G
  | [] => 0
  | b :: rest => (rest.length + 1) • b + wSumDesc rest

/-- The exponents of the active slots of a pair list, in order. -/
def activeExps (pairs : List (Nat × Bool)) : List Nat :=
  (pairs.filter (fun p => p.2)).map (fun p => p.1)

/-- The weight one window's scan gives an exponent: zero exponents and (in
windows with `handle_trivial = false`) unit exponents contribute nothing,
a unit exponent contributes once when `handle_trivial` is set, and any other
exponent contributes its window digit. -/
def winWeight (sk c : Nat) (handle_trivial : Bool) (e : Nat) : Nat :=
  if e = 0 then 0
  else if e = 1 then (if handle_trivial then 1 else 0)
  else ((e >>> sk) % 2 ^ 64) % 2 ^ (c % 64)

/-- Base-`2^c` window decomposition of `e` over `bits` remaining bits:
`Σ 2^(w·c) · ((e >>> w·c) mod 2^c)` over the windows covering `[0, bits)`.
(`max c 1` only guards termination; every use has `1 ≤ c`.) -/
def windowSum (c : Nat) : Nat → Nat → Nat
  | _, 0 => 0
  | e, bits + 1 => e % 2 ^ c + 2 ^ c * windowSum c (e >>> c) (bits + 1 - max c 1)
termination_by e bits => bits
decreasing_by omega

/-- The total weight `multiexp_inner` gives an exponent from window `sk`
upwards: the accumulated digits of all remaining windows. -/
def totalWeight (numBits c sk : Nat) (handle_trivial : Bool) (e : Nat) : Nat :=
  if e = 0 then 0
  else if e = 1 then (if handle_trivial then 1 else 0)
  else windowSum c (e >>> sk) (numBits - sk)

end SpecDefs

/-! ## Arithmetic helper lemmas -/

section Helpers

variable {G : Type} [AddCommMonoid G] [DecidableEq G]

theorem doubleTimes_eq_nsmul (n : Nat) (g : G) : doubleTimes n g = 2 ^ n • g := by
  induction n generalizing g with
  | zero => simp [doubleTimes]
  | succ n ih =>
    rw [doubleTimes, ih, ← two_nsmul, ← mul_nsmul, pow_succ, Nat.mul_comm]

theorem sbp_foldl (l : List G) (run acc : G) :
    l.foldl (fun (st : G × G) b => (st.1 + b, st.2 + (st.1 + b))) (run, acc)
      = (run + l.sum, acc + l.length • run + wSumDesc l) := by
  induction l generalizing run acc with
  | nil => simp [wSumDesc]
  | cons b rest ih =>
    rw [List.foldl_cons, ih]
    refine Prod.ext ?_ ?_
    · simp [add_assoc]
    · simp only [wSumDesc, List.length_cons, succ_nsmul, smul_add, List.sum_cons]
      abel

theorem wSumDesc_append_singleton (l : List G) (b : G) :
    wSumDesc (l ++ [b]) = wSumDesc l + l.sum + b := by
  induction l with
  | nil => simp [wSumDesc]
  | cons a rest ih =>
    have hlen : (rest ++ [b]).length = rest.length + 1 := by simp
    rw [List.cons_append, wSumDesc, wSumDesc, ih, hlen, List.sum_cons, succ_nsmul]
    abel

theorem wSumAsc_succ (l : List G) (k : Nat) : wSumAsc l (k + 1) = wSumAsc l k + l.sum := by
  induction l generalizing k with
  | nil => simp [wSumAsc]
  | cons a rest ih =>
    simp only [wSumAsc, ih, succ_nsmul, List.sum_cons]
    abel

theorem wSumDesc_reverse (l : List G) : wSumDesc l.reverse = wSumAsc l 1 := by
  induction l with
  | nil => simp [wSumDesc, wSumAsc]
  | cons a rest ih =>
    rw [List.reverse_cons, wSumDesc_append_singleton, ih, List.sum_reverse]
    simp only [wSumAsc, one_nsmul, wSumAsc_succ]
    abel

theorem sumByParts_eq (buckets : List G) (acc : G) :
    sumByParts buckets acc = acc + wSumAsc buckets 1 := by
  unfold sumByParts
  rw [sbp_foldl, wSumDesc_reverse]
  simp

theorem wSumAsc_replicate_zero (n k : Nat) : wSumAsc (List.replicate n (0 : G)) k = 0 := by
  induction n generalizing k with
  | zero => simp [wSumAsc]
  | succ n ih => simp [List.replicate_succ, wSumAsc, ih]

theorem wSumAsc_set (l : List G) (i k : Nat) (b : G) (h : i < l.length) :
    wSumAsc (l.set i (l.getD i 0 + b)) k = wSumAsc l k + (k + i) • b := by
  induction l generalizing i k with
  | nil => simp at h
  | cons a rest ih =>
    cases i with
    | zero =>
      simp only [List.set_cons_zero, List.getD_cons_zero, wSumAsc, smul_add, Nat.add_zero]
      abel
    | succ i =>
      simp only [List.set_cons_succ, List.getD_cons_succ, wSumAsc]
      rw [ih i (k + 1) (by simpa using h)]
      have hki : k + 1 + i = k + (i + 1) := by omega
      rw [hki, add_assoc]

theorem wSumAsc_eq_sum_range (l : List G) (k : Nat) :
    wSumAsc l k = ∑ i in Finset.range l.length, (k + i) • l.getD i 0 := by
  induction l generalizing k with
  | nil => simp [wSumAsc]
  | cons a rest ih =>
    rw [wSumAsc, ih, List.length_cons, Finset.sum_range_succ']
    simp only [List.getD_cons_succ, List.getD_cons_zero, add_zero]
    rw [add_comm]
    congr 1
    refine Finset.sum_congr rfl fun i _ => ?_
    have : k + (i + 1) = k + 1 + i := by omega
    rw [this]

theorem wSumAsc_one_eq_sum_Icc (l : List G) :
    wSumAsc l 1 = ∑ d in Finset.Icc 1 l.length, d • l.getD (d - 1) 0 := by
  rw [wSumAsc_eq_sum_range, ← Nat.Ico_succ_right, Finset.sum_Ico_eq_sum_range]
  simp

end Helpers

section Helpers2

variable {G : Type} [AddCommMonoid G] [DecidableEq G]

theorem msm_nil_right (es : List Nat) : msm es ([] : List G) = 0 := by
  cases es <;> rfl

theorem msm_map_add (f g : Nat → Nat) (es : List Nat) (bs : List G) :
    msm (es.map fun e => f e + g e) bs = msm (es.map f) bs + msm (es.map g) bs := by
  induction es generalizing bs with
  | nil => simp [msm]
  | cons e rest ih =>
    cases bs with
    | nil => simp [msm_nil_right]
    | cons b bs =>
      simp only [List.map_cons, msm, ih, add_nsmul]
      abel

theorem msm_map_mul (k : Nat) (f : Nat → Nat) (es : List Nat) (bs : List G) :
    msm (es.map fun e => k * f e) bs = k • msm (es.map f) bs := by
  induction es generalizing bs with
  | nil => simp [msm]
  | cons e rest ih =>
    cases bs with
    | nil => simp [msm_nil_right]
    | cons b bs =>
      simp only [List.map_cons, msm, ih, mul_nsmul, smul_add]
      rw [smul_comm]

theorem naiveMultiexp_eq_msm (es : List Nat) (bs : List G) :
    naiveMultiexp es bs = msm es bs := by
  induction es generalizing bs with
  | nil => simp [naiveMultiexp, msm]
  | cons e rest ih =>
    cases bs with
    | nil => simp [naiveMultiexp, msm_nil_right]
    | cons b bs =>
      simp only [naiveMultiexp, List.zipWith_cons_cons, List.sum_cons, msm]
      rw [← ih]
      rfl

theorem windowSum_succ (c e bits : Nat) (hc : 1 ≤ c) :
    windowSum c e (bits + 1) = e % 2 ^ c + 2 ^ c * windowSum c (e >>> c) (bits + 1 - c) := by
  rw [windowSum]
  have : max c 1 = c := by omega
  rw [this]

theorem windowSum_eq (c : Nat) (hc : 1 ≤ c) :
    ∀ bits e, e < 2 ^ bits → windowSum c e bits = e := by
  intro bits
  induction bits using Nat.strong_induction_on with
  | _ bits ih =>
    match bits with
    | 0 =>
      intro e he
      have : e = 0 := by omega
      simp [this, windowSum]
    | bits + 1 =>
      intro e he
      rw [windowSum_succ c e bits hc]
      have h2 : e >>> c = e / 2 ^ c := Nat.shiftRight_eq_div_pow e c
      have hlt : e / 2 ^ c < 2 ^ (bits + 1 - c) := by
        rcases le_or_lt c (bits + 1) with h | h
        · rw [Nat.div_lt_iff_lt_mul (pow_pos (by norm_num : (0:ℕ) < 2) c), ← pow_add]
          have : bits + 1 - c + c = bits + 1 := by omega
          rw [this]
          exact he
        · have : e < 2 ^ c := lt_of_lt_of_le he (Nat.pow_le_pow_right (by norm_num) (by omega))
          rw [Nat.div_eq_of_lt this]
          exact pow_pos (by norm_num) _
      rw [h2, ih (bits + 1 - c) (by omega) _ hlt, Nat.mod_add_div]

end Helpers2

/-! ## The window scan lemma -/

section WindowLemma

variable {G : Type} [AddCommMonoid G] [DecidableEq G]

theorem src_skip_of_lt (bs : List G) (p n : Nat) (h : p < bs.length) :
    Src.skip ⟨bs, p⟩ n = .ok ⟨bs, p + n⟩ := by
  have h' : ¬ (bs.length ≤ p) := by omega
  simp [Src.skip, h']

theorem src_consume_of_lt (bs : List G) (p : Nat) (x : G) (h : p < bs.length)
    (hb : bs.getD p 0 ≠ 0) :
    Src.addAssignMixed ⟨bs, p⟩ x = .ok (x + bs.getD p 0, ⟨bs, p + 1⟩) := by
  have h' : ¬ (bs.length ≤ p) := by omega
  simp only [Src.addAssignMixed]
  rw [if_neg h', if_neg hb]

theorem activeExps_cons_false (e : Nat) (rest : List (Nat × Bool)) :
    activeExps ((e, false) :: rest) = activeExps rest := by
  simp [activeExps]

theorem activeExps_cons_true (e : Nat) (rest : List (Nat × Bool)) :
    activeExps ((e, true) :: rest) = e :: activeExps rest := by
  simp [activeExps]

theorem windowLoop_ok (sk c : Nat) (ht : Bool) :
    ∀ (pairs : List (Nat × Bool)) (acc : G) (bk : List G) (bs : List G) (p : Nat),
      bk.length = 2 ^ (c % 64) - 1 →
      p + (activeExps pairs).length ≤ bs.length →
      (∀ b ∈ bs, b ≠ 0) →
      ∃ acc' bk',
        windowLoop sk c ht pairs acc bk ⟨bs, p⟩
            = .ok (acc', bk', ⟨bs, p + (activeExps pairs).length⟩)
          ∧ bk'.length = bk.length
          ∧ acc' + wSumAsc bk' 1
              = acc + wSumAsc bk 1
                + msm ((activeExps pairs).map (winWeight sk c ht)) (bs.drop p) := by
  intro pairs
  induction pairs with
  | nil =>
    intro acc bk bs p hbk hp hb
    exact ⟨acc, bk, by simp [windowLoop, activeExps], rfl, by simp [activeExps, msm]⟩
  | cons pr rest ih =>
    obtain ⟨e, dens⟩ := pr
    intro acc bk bs p hbk hp hb
    cases dens with
    | false =>
      rw [activeExps_cons_false] at hp
      obtain ⟨acc', bk', heq, hl, hs⟩ := ih acc bk bs p hbk hp hb
      refine ⟨acc', bk', ?_, hl, ?_⟩
      · simpa [windowLoop, activeExps_cons_false] using heq
      · rw [activeExps_cons_false]
        exact hs
    | true =>
      rw [activeExps_cons_true, List.length_cons] at hp
      have hplt : p < bs.length := by omega
      have hdrop : bs.drop p = bs.getD p 0 :: bs.drop (p + 1) := by
        rw [List.getD_eq_getElem _ _ hplt]
        exact List.drop_eq_getElem_cons hplt
      have hbase : bs.getD p 0 ≠ 0 := by
        rw [List.getD_eq_getElem _ _ hplt]
        exact hb _ (List.getElem_mem hplt)
      have harith : p + 1 + (activeExps rest).length = p + ((activeExps rest).length + 1) := by
        omega
      by_cases he0 : e = 0
      · -- active, exponent zero: skip(1)
        subst he0
        obtain ⟨acc', bk', heq, hl, hs⟩ := ih acc bk bs (p + 1) hbk (by omega) hb
        rw [harith] at heq
        refine ⟨acc', bk', ?_, hl, ?_⟩
        · simp only [windowLoop, if_pos rfl, src_skip_of_lt bs p 1 hplt]
          rw [activeExps_cons_true, List.length_cons]
          exact heq
        · rw [activeExps_cons_true, hs, hdrop]
          simp [msm, winWeight]
      · by_cases he1 : e = 1
        · subst he1
          cases ht with
          | true =>
            -- active, exponent one, handle_trivial: consume into the accumulator
            obtain ⟨acc', bk', heq, hl, hs⟩ :=
              ih (acc + bs.getD p 0) bk bs (p + 1) hbk (by omega) hb
            rw [harith] at heq
            refine ⟨acc', bk', ?_, hl, ?_⟩
            · simp only [windowLoop, if_neg he0, if_pos rfl,
                src_consume_of_lt bs p acc hplt hbase]
              rw [activeExps_cons_true, List.length_cons]
              exact heq
            · rw [activeExps_cons_true, hs, hdrop]
              simp only [List.map_cons, msm, winWeight, if_neg he0, if_pos rfl, one_nsmul]
              abel
          | false =>
            -- active, exponent one, not handle_trivial: skip(1)
            obtain ⟨acc', bk', heq, hl, hs⟩ := ih acc bk bs (p + 1) hbk (by omega) hb
            rw [harith] at heq
            refine ⟨acc', bk', ?_, hl, ?_⟩
            · simp only [windowLoop, if_neg he0, if_pos rfl, Bool.false_eq_true, if_false,
                src_skip_of_lt bs p 1 hplt]
              rw [activeExps_cons_true, List.length_cons]
              exact heq
            · rw [activeExps_cons_true, hs, hdrop]
              simp [msm, winWeight, he0]
        · -- active, exponent at least two: bucket by the window digit
          by_cases hd : ((e >>> sk) % 2 ^ 64) % 2 ^ (c % 64) = 0
          · obtain ⟨acc', bk', heq, hl, hs⟩ := ih acc bk bs (p + 1) hbk (by omega) hb
            rw [harith] at heq
            refine ⟨acc', bk', ?_, hl, ?_⟩
            · simp only [windowLoop, if_neg he0, if_neg he1, hd, ne_eq,
                not_true_eq_false, if_false, src_skip_of_lt bs p 1 hplt]
              rw [activeExps_cons_true, List.length_cons]
              exact heq
            · have hw0 : winWeight sk c ht e = 0 := by
                unfold winWeight
                rw [if_neg he0, if_neg he1, hd]
              rw [activeExps_cons_true, hs, hdrop]
              simp [msm, hw0]
          · have hdpos : 1 ≤ ((e >>> sk) % 2 ^ 64) % 2 ^ (c % 64) := by omega
            have hdlt : ((e >>> sk) % 2 ^ 64) % 2 ^ (c % 64) < 2 ^ (c % 64) :=
              Nat.mod_lt _ (pow_pos (by norm_num) _)
            have hidx : ((e >>> sk) % 2 ^ 64) % 2 ^ (c % 64) - 1 < bk.length := by omega
            obtain ⟨acc', bk', heq, hl, hs⟩ :=
              ih acc
                (bk.set (((e >>> sk) % 2 ^ 64) % 2 ^ (c % 64) - 1)
                  (bk.getD (((e >>> sk) % 2 ^ 64) % 2 ^ (c % 64) - 1) 0 + bs.getD p 0))
                bs (p + 1) (by rw [List.length_set]; exact hbk) (by omega) hb
            rw [harith] at heq
            refine ⟨acc', bk', ?_, by rw [hl, List.length_set], ?_⟩
            · simp only [windowLoop, if_neg he0, if_neg he1, hd, ne_eq, not_false_eq_true,
                if_true, src_consume_of_lt bs p _ hplt hbase]
              rw [activeExps_cons_true, List.length_cons]
              exact heq
            · rw [activeExps_cons_true, hs, hdrop,
                wSumAsc_set bk _ 1 (bs.getD p 0) hidx]
              have hw : 1 + (((e >>> sk) % 2 ^ 64) % 2 ^ (c % 64) - 1)
                  = ((e >>> sk) % 2 ^ 64) % 2 ^ (c % 64) := by omega
              rw [hw]
              simp only [List.map_cons, msm, winWeight, if_neg he0, if_neg he1]
              abel

end WindowLemma

section InnerLemma

variable {G : Type} [AddCommMonoid G] [DecidableEq G]

theorem windowSum_zero_bits (c e : Nat) : windowSum c e 0 = 0 := by
  simp [windowSum]

theorem multiexpWindow_ok (sk c : Nat) (ht : Bool) (pairs : List (Nat × Bool))
    (bs : List G) (p : Nat)
    (hp : p + (activeExps pairs).length ≤ bs.length)
    (hb : ∀ b ∈ bs, b ≠ 0) :
    multiexpWindow ⟨bs, p⟩ pairs sk c ht
      = .ok (msm ((activeExps pairs).map (winWeight sk c ht)) (bs.drop p)) := by
  obtain ⟨acc', bk', heq, hl, hs⟩ :=
    windowLoop_ok sk c ht pairs 0 (List.replicate (2 ^ (c % 64) - 1) (0 : G)) bs p
      (by simp) hp hb
  unfold multiexpWindow
  rw [heq]
  show Except.ok (sumByParts bk' acc')
      = Except.ok (msm ((activeExps pairs).map (winWeight sk c ht)) (bs.drop p))
  rw [sumByParts_eq, hs, wSumAsc_replicate_zero]
  simp

/-- For any exponent, the total weight from window `sk` on decomposes as this
window's weight plus `2^c` times the total weight from window `sk + c` on,
provided a higher window exists and widths stay below the word size. -/
theorem totalWeight_decomp (numBits c sk : Nat) (ht : Bool) (hc : 1 ≤ c) (hc63 : c ≤ 63)
    (hlt : sk + c < numBits) (e : Nat) :
    totalWeight numBits c sk ht e
      = winWeight sk c ht e + 2 ^ c * totalWeight numBits c (sk + c) false e := by
  have hmask : c % 64 = c := Nat.mod_eq_of_lt (by omega)
  unfold totalWeight winWeight
  by_cases he0 : e = 0
  · simp [he0]
  by_cases he1 : e = 1
  · simp [he0, he1]
  rw [if_neg he0, if_neg he1, if_neg he0, if_neg he1, if_neg he0, if_neg he1]
  have hb1 : numBits - sk = (numBits - sk - 1) + 1 := by omega
  rw [hb1, windowSum_succ _ _ _ hc]
  have hsh : (e >>> sk) >>> c = e >>> (sk + c) := (Nat.shiftRight_add e sk c).symm
  have hbits : numBits - sk - 1 + 1 - c = numBits - (sk + c) := by omega
  rw [hsh, hbits, hmask, Nat.mod_mod_of_dvd _ (pow_dvd_pow 2 (by omega : c ≤ 64))]

/-- In the terminal window (`numBits ≤ sk + c`) the window weight is the
whole remaining total weight. -/
theorem totalWeight_terminal (numBits c sk : Nat) (ht : Bool) (hc : 1 ≤ c) (hc63 : c ≤ 63)
    (hsk : sk < numBits) (hterm : numBits ≤ sk + c) (e : Nat) :
    winWeight sk c ht e = totalWeight numBits c sk ht e := by
  have hmask : c % 64 = c := Nat.mod_eq_of_lt (by omega)
  unfold totalWeight winWeight
  by_cases he0 : e = 0
  · simp [he0]
  by_cases he1 : e = 1
  · simp [he0, he1]
  rw [if_neg he0, if_neg he1, if_neg he0, if_neg he1]
  have hb1 : numBits - sk = (numBits - sk - 1) + 1 := by omega
  rw [hb1, windowSum_succ _ _ _ hc]
  have hbits : numBits - sk - 1 + 1 - c = 0 := by omega
  rw [hbits, windowSum_zero_bits, hmask,
    Nat.mod_mod_of_dvd _ (pow_dvd_pow 2 (by omega : c ≤ 64))]
  omega

/-- Main recursion lemma: on well-formed inputs `multiexp_inner` computes
the weighted MSM of the active exponents over the bases from the cursor on. -/
theorem multiexpInner_ok (numBits c : Nat) (hc : 1 ≤ c) (hc63 : c ≤ 63)
    (dens : DensityMap) (exps : List Nat) (bs : List G) (p : Nat)
    (hlen : p + (activeExps (pairsOf dens exps)).length ≤ bs.length)
    (hb : ∀ b ∈ bs, b ≠ 0) :
    ∀ (sk : Nat) (ht : Bool), sk < numBits → (ht = true ∨ 1 ≤ sk) →
      multiexpInner numBits ⟨bs, p⟩ dens exps sk c ht
        = .ok (msm ((activeExps (pairsOf dens exps)).map
            (totalWeight numBits c sk ht)) (bs.drop p)) := by
  suffices H : ∀ (fuel sk : Nat) (ht : Bool), numBits - sk ≤ fuel → sk < numBits →
      (ht = true ∨ 1 ≤ sk) →
      multiexpInner numBits ⟨bs, p⟩ dens exps sk c ht
        = .ok (msm ((activeExps (pairsOf dens exps)).map
            (totalWeight numBits c sk ht)) (bs.drop p)) by
    intro sk ht h1 h2
    exact H (numBits - sk) sk ht le_rfl h1 h2
  intro fuel
  induction fuel with
  | zero =>
    intro sk ht hf h1 h2
    omega
  | succ fuel ihf =>
    intro sk ht hf h1 h2
    have hnew : Src.new (⟨bs, p⟩ : Src G) = ⟨bs, p⟩ := rfl
    have hwin := multiexpWindow_ok sk c ht (pairsOf dens exps) bs p hlen hb
    by_cases hterm : numBits ≤ sk + c
    · rw [multiexpInner, dif_pos hterm, hnew, hwin]
      congr 2
      exact List.map_congr_left fun e _ =>
        totalWeight_terminal numBits c sk ht hc hc63 h1 hterm e
    · have hc0 : ¬ (c = 0) := by omega
      rw [multiexpInner, dif_neg hterm, dif_neg hc0, hnew, hwin,
        ihf (sk + c) false (by omega) (by omega) (Or.inr (by omega))]
      simp only [Except.bind, Except.map]
      congr 1
      have hmapeq : (activeExps (pairsOf dens exps)).map (totalWeight numBits c sk ht)
          = (activeExps (pairsOf dens exps)).map
              (fun e => winWeight sk c ht e
                + 2 ^ c * totalWeight numBits c (sk + c) false e) :=
        List.map_congr_left fun e _ =>
          totalWeight_decomp numBits c sk ht hc hc63 (by omega) e
      rw [hmapeq, msm_map_add, msm_map_mul, doubleTimes_eq_nsmul]
      exact add_comm _ _

end InnerLemma

/-! ## Specialisation to the entry point -/

section EntryLemmas

variable {G : Type} [AddCommMonoid G] [DecidableEq G]

theorem activeExps_pairsOf_full (exps : List Nat) :
    activeExps (pairsOf .full exps) = exps := by
  induction exps with
  | nil => rfl
  | cons e rest ih =>
    show activeExps ((e, true) :: pairsOf .full rest) = e :: rest
    rw [activeExps_cons_true, ih]

theorem mem_of_mem_activeExps (dens : DensityMap) (exps : List Nat) (e : Nat)
    (h : e ∈ activeExps (pairsOf dens exps)) : e ∈ exps := by
  cases dens with
  | full => rwa [activeExps_pairsOf_full] at h
  | tracker t =>
    unfold activeExps pairsOf at h
    simp only [List.mem_map, List.mem_filter] at h
    obtain ⟨⟨a, b⟩, ⟨hmem, _⟩, rfl⟩ := h
    exact (List.of_mem_zip hmem).1

theorem totalWeight_zero_eq (numBits c : Nat) (hc : 1 ≤ c) (e : Nat)
    (he : e < 2 ^ numBits) : totalWeight numBits c 0 true e = e := by
  unfold totalWeight
  by_cases he0 : e = 0
  · simp [he0]
  by_cases he1 : e = 1
  · simp [he0, he1]
  rw [if_neg he0, if_neg he1, Nat.shiftRight_zero, Nat.sub_zero]
  exact windowSum_eq c hc numBits e he

/-- On well-formed inputs the whole recursion started at `skip = 0` with
`handle_trivial = true` returns the exact MSM of the active exponents
against the bases — independently of the window width `c ≤ 63`. -/
theorem multiexpInner_spec (numBits c : Nat) (hc : 1 ≤ c) (hc63 : c ≤ 63)
    (hnb : 1 ≤ numBits) (dens : DensityMap) (exps : List Nat) (bs : List G)
    (hlen : (activeExps (pairsOf dens exps)).length ≤ bs.length)
    (hb : ∀ b ∈ bs, b ≠ 0)
    (he : ∀ e ∈ exps, e < 2 ^ numBits) :
    multiexpInner numBits ⟨bs, 0⟩ dens exps 0 c true
      = .ok (msm (activeExps (pairsOf dens exps)) bs) := by
  rw [multiexpInner_ok numBits c hc hc63 dens exps bs 0 (by omega) hb 0 true (by omega)
    (Or.inl rfl)]
  rw [List.drop_zero]
  have hmap : (activeExps (pairsOf dens exps)).map (totalWeight numBits c 0 true)
      = activeExps (pairsOf dens exps) := by
    rw [List.map_congr_left fun e hm =>
      totalWeight_zero_eq numBits c hc e (he e (mem_of_mem_activeExps dens exps e hm))]
    exact List.map_id' _
  rw [hmap]

end EntryLemmas

/-! ## The window-width heuristic -/

theorem lnCeilAux_succ (n fuel k : Nat) :
    lnCeilAux n (fuel + 1) k
      = if n * (10 ^ 18) ^ k ≤ e18 ^ k then k else lnCeilAux n fuel (k + 1) := rfl

theorem lnCeilAux_lower (n K : Nat)
    (hK : ∀ j, j < K → ¬ (n * (10 ^ 18) ^ j ≤ e18 ^ j)) :
    ∀ fuel k, min K (k + fuel) ≤ lnCeilAux n fuel k := by
  intro fuel
  induction fuel with
  | zero =>
    intro k
    simp only [lnCeilAux]
    omega
  | succ fuel ih =>
    intro k
    rw [lnCeilAux_succ]
    split
    · next hcond =>
      have : ¬ (k < K) := fun hk => hK k hk hcond
      omega
    · have := ih (k + 1)
      omega

theorem lnCeilAux_le (n K : Nat) (hK : n * (10 ^ 18) ^ K ≤ e18 ^ K) :
    ∀ fuel k, k ≤ K → K < k + fuel → lnCeilAux n fuel k ≤ K := by
  intro fuel
  induction fuel with
  | zero =>
    intro k h1 h2
    omega
  | succ fuel ih =>
    intro k h1 h2
    rw [lnCeilAux_succ]
    split
    · exact h1
    · next hcond =>
      have hne : k ≠ K := fun h => hcond (h ▸ hK)
      exact ih (k + 1) (by omega) (by omega)

theorem lnCeil_ge_four (n : Nat) (h : 32 ≤ n) : 4 ≤ lnCeil n := by
  have key : ∀ k, e18 ^ k < 32 * (10 ^ 18) ^ k → ¬ (n * (10 ^ 18) ^ k ≤ e18 ^ k) := by
    intro k hk hle
    have hmul : 32 * (10 ^ 18) ^ k ≤ n * (10 ^ 18) ^ k := Nat.mul_le_mul_right _ h
    omega
  have hK : ∀ j, j < 4 → ¬ (n * (10 ^ 18) ^ j ≤ e18 ^ j) := by
    intro j hj
    have hcases : j = 0 ∨ j = 1 ∨ j = 2 ∨ j = 3 := by omega
    rcases hcases with rfl | rfl | rfl | rfl
    · exact key 0 (by norm_num [e18])
    · exact key 1 (by norm_num [e18])
    · exact key 2 (by norm_num [e18])
    · exact key 3 (by norm_num [e18])
  have := lnCeilAux_lower n 4 hK 64 0
  unfold lnCeil
  omega

theorem lnCeil_le_23 (n : Nat) (h : n < 2 ^ 32) : lnCeil n ≤ 23 := by
  have hbig : 2 ^ 32 * (10 ^ 18) ^ 23 ≤ e18 ^ 23 := by norm_num [e18]
  have hK : n * (10 ^ 18) ^ 23 ≤ e18 ^ 23 :=
    le_trans (Nat.mul_le_mul_right _ (by omega)) hbig
  exact lnCeilAux_le n 23 hK 64 0 (by omega) (by omega)

theorem multiexpC_bounds (n : Nat) (hn : n < 2 ^ 32) :
    3 ≤ multiexpC n ∧ multiexpC n ≤ 63 := by
  unfold multiexpC
  by_cases h : n < 32
  · simp [h]
  · rw [if_neg h, Nat.mod_eq_of_lt hn]
    have h4 := lnCeil_ge_four n (by omega)
    have h23 := lnCeil_le_23 n hn
    omega

/-! ## Window count and density tracker -/

theorem numWindows_eq (c : Nat) (hc : 1 ≤ c) (numBits : Nat) :
    ∀ sk, sk < numBits → numWindows numBits sk c = (numBits - sk + c - 1) / c := by
  suffices H : ∀ fuel sk, numBits - sk ≤ fuel → sk < numBits →
      numWindows numBits sk c = (numBits - sk + c - 1) / c by
    intro sk h
    exact H (numBits - sk) sk le_rfl h
  intro fuel
  induction fuel with
  | zero =>
    intro sk hf h
    omega
  | succ fuel ih =>
    intro sk hf h
    by_cases hterm : numBits ≤ sk + c
    · rw [numWindows, dif_pos hterm]
      have h1 : numBits - sk + c - 1 = (numBits - sk - 1) + c := by omega
      rw [h1, Nat.add_div_right _ (by omega), Nat.div_eq_of_lt (by omega)]
    · rw [numWindows, dif_neg hterm, dif_neg (by omega : ¬ (c = 0)),
        ih (sk + c) (by omega) (by omega)]
      have h1 : numBits - (sk + c) + c - 1 = numBits - sk - 1 := by omega
      have h2 : numBits - sk + c - 1 = (numBits - sk - 1) + c := by omega
      rw [h1, h2, Nat.add_div_right _ (by omega)]
      omega

/-- The invariant of `DensityTracker`: the stored total density is the number
of set bits. -/
def DensityTracker.inv (t : DensityTracker) : Prop :=
  t.total_density = t.bv.count true

theorem count_true_set (l : List Bool) :
    ∀ i, l[i]? = some false → (l.set i true).count true = l.count true + 1 := by
  induction l with
  | nil =>
    intro i h
    simp at h
  | cons a rest ih =>
    intro i h
    cases i with
    | zero =>
      simp only [List.getElem?_cons_zero, Option.some_inj] at h
      subst h
      simp [List.count_cons]
    | succ i =>
      simp only [List.getElem?_cons_succ] at h
      simp only [List.set_cons_succ, List.count_cons, ih i h]
      omega

/-! ## Claims -/

/-- Claim C1: for a list of `N` affine bases (none the identity) and `N`
canonical scalars with a full density map, `multiexp` yields the naive
multi-scalar multiplication `Σ sᵢ • Bᵢ`.  The bound `exps.length < 2 ^ 32`
reflects the entry point's `as u32` cast of the length when choosing the
window width; all real inputs satisfy it. -/
theorem multiexp_full_density_eq_naive {G : Type} [AddCommMonoid G] [DecidableEq G]
    (numBits : Nat) (bs : List G) (exps : List Nat)
    (hN : bs.length = exps.length) (hnb : 1 ≤ numBits) (hlen : exps.length < 2 ^ 32)
    (hb : ∀ b ∈ bs, b ≠ 0) (he : ∀ e ∈ exps, e < 2 ^ numBits) :
    multiexp numBits ⟨bs, 0⟩ .full exps = some (.ok (naiveMultiexp exps bs)) := by
  have hc := multiexpC_bounds exps.length hlen
  rw [show multiexp numBits (⟨bs, 0⟩ : Src G) .full exps
      = some (multiexpInner numBits ⟨bs, 0⟩ .full exps 0 (multiexpC exps.length) true)
      from rfl]
  rw [multiexpInner_spec numBits (multiexpC exps.length) (by omega) (by omega) hnb .full
    exps bs (by rw [activeExps_pairsOf_full]; omega) hb he]
  rw [activeExps_pairsOf_full, naiveMultiexp_eq_msm]

/-- Witness for C1 at `bases = [2, 3]`, `scalars = [2, 3]` over `ℕ`. -/
theorem multiexp_full_density_eq_naive_witness :
    multiexp 4 (⟨[2, 3], 0⟩ : Src ℕ) .full [2, 3] = some (.ok 13) := by
  rw [multiexp_full_density_eq_naive 4 [2, 3] [2, 3] rfl (by norm_num) (by norm_num)
    (by decide) (by decide)]
  decide

/-- Claim C2 counterexample: with `NUM_BITS = 66` the widths `c₁ = 65` and
`c₂ = 3` both satisfy `1 ≤ c < NUM_BITS`, yet on bases `[1]` and exponents
`[3]` (full density) the windowed algorithm returns different results: the
64-bit low-word digit extraction (`repr.as_ref()[0] % (1 << c)`, a `u64`
shift) cannot produce digits of 65 bits, so width 65 loses the scalar's
high bit. -/
theorem multiexpInner_width_counterexample :
    multiexpInner 66 (⟨[1], 0⟩ : Src ℕ) .full [3] 0 65 true = .ok 1
    ∧ multiexpInner 66 (⟨[1], 0⟩ : Src ℕ) .full [3] 0 3 true = .ok 3
    ∧ (1 ≤ 65 ∧ 65 < 66 ∧ 1 ≤ 3 ∧ 3 < 66)
    ∧ (.ok 1 : Except SynthesisError ℕ) ≠ .ok 3 := by
  refine ⟨?_, ?_, by norm_num, by decide⟩
  · rw [multiexpInner, dif_neg (by norm_num : ¬ (66 ≤ 0 + 65)),
      dif_neg (by norm_num : ¬ (65 = 0))]
    rw [multiexpInner, dif_pos (by norm_num : 66 ≤ 0 + 65 + 65)]
    decide
  · rw [multiexpInner_spec 66 3 (by norm_num) (by norm_num) (by norm_num) .full [3] [1]
      (by decide) (by decide) (by decide)]
    decide

/-- Claim C2 (amended): the window width is a pure performance parameter in
the range `1 ≤ c ≤ 63` (below the 64-bit word used for digit extraction):
for any density map and any well-formed input (canonical exponents, enough
bases, no identity points) any two such widths give identical results. -/
theorem multiexpInner_width_invariant {G : Type} [AddCommMonoid G] [DecidableEq G]
    (numBits c1 c2 : Nat) (dens : DensityMap) (exps : List Nat) (bs : List G)
    (hc1 : 1 ≤ c1) (hc1' : c1 ≤ 63) (hc2 : 1 ≤ c2) (hc2' : c2 ≤ 63)
    (hnb : 1 ≤ numBits)
    (hlen : (activeExps (pairsOf dens exps)).length ≤ bs.length)
    (hb : ∀ b ∈ bs, b ≠ 0) (he : ∀ e ∈ exps, e < 2 ^ numBits) :
    multiexpInner numBits ⟨bs, 0⟩ dens exps 0 c1 true
      = multiexpInner numBits ⟨bs, 0⟩ dens exps 0 c2 true := by
  rw [multiexpInner_spec numBits c1 hc1 hc1' hnb dens exps bs hlen hb he,
    multiexpInner_spec numBits c2 hc2 hc2' hnb dens exps bs hlen hb he]

/-- Witness for the amended C2 at widths 2 and 3. -/
theorem multiexpInner_width_invariant_witness :
    multiexpInner 4 (⟨[5, 7], 0⟩ : Src ℕ) .full [2, 3] 0 2 true
      = multiexpInner 4 (⟨[5, 7], 0⟩ : Src ℕ) .full [2, 3] 0 3 true :=
  multiexpInner_width_invariant 4 2 3 .full [2, 3] [5, 7] (by norm_num) (by norm_num)
    (by norm_num) (by norm_num) (by norm_num) (by decide) (by decide) (by decide)

/-- Claim C3: for a bucket array of length `2^c - 1` and any starting
accumulator, the reversed-iteration running-sum loop adds exactly
`Σ_{d=1}^{2^c-1} d • bucket[d-1]` to the accumulator. -/
theorem sumByParts_adds_weighted_buckets {G : Type} [AddCommMonoid G] [DecidableEq G]
    (c : Nat) (buckets : List G) (acc : G) (h : buckets.length = 2 ^ c - 1) :
    sumByParts buckets acc
      = acc + ∑ d in Finset.Icc 1 (2 ^ c - 1), d • buckets.getD (d - 1) 0 := by
  rw [sumByParts_eq, wSumAsc_one_eq_sum_Icc, h]

/-- Witness for C3 at `c = 2`, buckets `[5, 7, 9]`, accumulator `100`. -/
theorem sumByParts_adds_weighted_buckets_witness :
    ([(5 : ℕ), 7, 9].length = 2 ^ 2 - 1)
    ∧ sumByParts [(5 : ℕ), 7, 9] 100
        = 100 + ∑ d in Finset.Icc 1 (2 ^ 2 - 1), d • [(5 : ℕ), 7, 9].getD (d - 1) 0 :=
  ⟨by decide, sumByParts_adds_weighted_buckets 2 [5, 7, 9] 100 (by decide)⟩

/-- Claim C4: when a more significant window exists (`skip + c < NUM_BITS`)
the composed result is the higher window's result (computed with
`handle_trivial = false` and a fresh base source) doubled `c` times — that
is, multiplied by `2^c` — plus this window's result; with no further window
the bucket-reduction result is returned unscaled. -/
theorem windowComposer_combines {G : Type} [AddCommMonoid G] [DecidableEq G]
    (numBits : Nat) (bases : Src G) (dens : DensityMap) (exps : List Nat)
    (sk c : Nat) (ht : Bool) (hc : 1 ≤ c) (t h : G) :
    (sk + c < numBits →
      multiexpWindow (Src.new bases) (pairsOf dens exps) sk c ht = .ok t →
      multiexpInner numBits bases dens exps (sk + c) c false = .ok h →
      multiexpInner numBits bases dens exps sk c ht = .ok (doubleTimes c h + t))
    ∧ doubleTimes c h = 2 ^ c • h
    ∧ (numBits ≤ sk + c →
      multiexpInner numBits bases dens exps sk c ht
        = multiexpWindow (Src.new bases) (pairsOf dens exps) sk c ht) := by
  refine ⟨?_, doubleTimes_eq_nsmul c h, ?_⟩
  · intro hlt hw hi
    rw [multiexpInner, dif_neg (by omega), dif_neg (by omega), hw, hi]
    rfl
  · intro hge
    rw [multiexpInner, dif_pos hge]

/-- Witness for C4 on the empty exponent list with `numBits = 6`, `c = 3`. -/
theorem windowComposer_combines_witness :
    multiexpInner 6 (⟨([] : List ℕ), 0⟩) .full [] 0 3 true
      = .ok (doubleTimes 3 (0 : ℕ) + 0) := by
  have hi : multiexpInner 6 (⟨([] : List ℕ), 0⟩) .full [] 3 3 false = .ok 0 := by
    rw [multiexpInner, dif_pos (by norm_num : 6 ≤ 3 + 3)]
    decide
  exact (windowComposer_combines 6 ⟨[], 0⟩ .full [] 0 3 true (by norm_num) 0 0).1
    (by norm_num) (by decide) hi

/-- Claim C5 counterexample: with window width 65 and exponent `2^64`, the
claim's digit `(e >>> skip) mod 2^c = 2^64` is nonzero, so the claim
requires consuming the base into a bucket; the code's 64-bit low-word
extraction computes digit `0` and instead calls `skip(1)`: accumulator and
buckets come back unchanged with the cursor advanced. -/
theorem windowLoop_digit_counterexample :
    windowLoop 0 65 false [(2 ^ 64, true)] (0 : ℕ) [0] ⟨[7], 0⟩
        = .ok (0, [0], ⟨[7], 1⟩)
    ∧ (2 ^ 64 >>> 0) % 2 ^ 65 ≠ 0 :=
  ⟨by decide, by decide⟩

/-- Claim C5 (amended): during one window's scan, for widths `c ≤ 63`: an
inactive slot leaves accumulator, buckets and source untouched; an active
zero exponent skips one base; an active unit exponent is consumed into the
accumulator exactly when `handle_trivial` is set, else skipped; any other
active exponent computes the digit `(e >>> skip) mod 2^c`, skips one base
when the digit is zero, and otherwise consumes one base into
`bucket[digit - 1]`. -/
theorem windowLoop_step {G : Type} [AddCommMonoid G] [DecidableEq G]
    (sk c : Nat) (hc63 : c ≤ 63) (ht : Bool) (e : Nat) (rest : List (Nat × Bool))
    (acc : G) (bk : List G) (src : Src G) :
    (windowLoop sk c ht ((e, false) :: rest) acc bk src
        = windowLoop sk c ht rest acc bk src)
    ∧ (windowLoop sk c ht ((0, true) :: rest) acc bk src
        = (src.skip 1).bind fun s => windowLoop sk c ht rest acc bk s)
    ∧ (windowLoop sk c true ((1, true) :: rest) acc bk src
        = (src.addAssignMixed acc).bind fun p => windowLoop sk c true rest p.1 bk p.2)
    ∧ (windowLoop sk c false ((1, true) :: rest) acc bk src
        = (src.skip 1).bind fun s => windowLoop sk c false rest acc bk s)
    ∧ (2 ≤ e → (e >>> sk) % 2 ^ c = 0 →
        windowLoop sk c ht ((e, true) :: rest) acc bk src
          = (src.skip 1).bind fun s => windowLoop sk c ht rest acc bk s)
    ∧ (2 ≤ e → (e >>> sk) % 2 ^ c ≠ 0 →
        windowLoop sk c ht ((e, true) :: rest) acc bk src
          = (src.addAssignMixed (bk.getD ((e >>> sk) % 2 ^ c - 1) 0)).bind
              fun p => windowLoop sk c ht rest acc (bk.set ((e >>> sk) % 2 ^ c - 1) p.1) p.2) := by
  have hmask : ∀ x : Nat, (x % 2 ^ 64) % 2 ^ (c % 64) = x % 2 ^ c := by
    intro x
    rw [Nat.mod_eq_of_lt (by omega : c < 64),
      Nat.mod_mod_of_dvd _ (pow_dvd_pow 2 (by omega : c ≤ 64))]
  refine ⟨?_, ?_, ?_, ?_, ?_, ?_⟩
  · simp [windowLoop]
  · cases hs : Src.skip src 1 with
    | error err => simp [windowLoop, hs, Except.bind]
    | ok s => simp [windowLoop, hs, Except.bind]
  · cases hs : Src.addAssignMixed src acc with
    | error err => simp [windowLoop, hs, Except.bind]
    | ok p =>
      obtain ⟨a, s⟩ := p
      simp [windowLoop, hs, Except.bind]
  · cases hs : Src.skip src 1 with
    | error err => simp [windowLoop, hs, Except.bind]
    | ok s => simp [windowLoop, hs, Except.bind]
  · intro h2 hd
    have he0 : ¬ (e = 0) := by omega
    have he1 : ¬ (e = 1) := by omega
    simp only [windowLoop, hmask]
    cases hs : Src.skip src 1 with
    | error err => simp [hs, Except.bind, he0, he1, hd]
    | ok s => simp [hs, Except.bind, he0, he1, hd]
  · intro h2 hd
    have he0 : ¬ (e = 0) := by omega
    have he1 : ¬ (e = 1) := by omega
    simp only [windowLoop, hmask]
    cases hs : Src.addAssignMixed src (bk.getD ((e >>> sk) % 2 ^ c - 1) 0) with
    | error err => simp [hs, Except.bind, he0, he1, hd]
    | ok p =>
      obtain ⟨a, s⟩ := p
      simp [hs, Except.bind, he0, he1, hd]

/-- Witness for the amended C5: exponent 5 at width 3 lands in bucket 2. -/
theorem windowLoop_step_witness :
    (2 ≤ 5 ∧ (5 >>> 0) % 2 ^ 3 ≠ 0)
    ∧ windowLoop 0 3 false [((5 : Nat), true)] (0 : ℕ) [0, 0, 0, 0, 0, 0, 0] ⟨[4], 0⟩
        = (Src.addAssignMixed (⟨[4], 0⟩ : Src ℕ)
              ([(0 : ℕ), 0, 0, 0, 0, 0, 0].getD ((5 >>> 0) % 2 ^ 3 - 1) 0)).bind
            fun p => windowLoop 0 3 false [] 0
              ([(0 : ℕ), 0, 0, 0, 0, 0, 0].set ((5 >>> 0) % 2 ^ 3 - 1) p.1) p.2 :=
  ⟨⟨by norm_num, by decide⟩,
    (windowLoop_step 0 3 (by norm_num) false 5 [] 0 [0, 0, 0, 0, 0, 0, 0] ⟨[4], 0⟩).2.2.2.2.2
      (by norm_num) (by decide)⟩

/-- Claim C6 counterexample: with one base remaining and `n = 5`, fewer than
`n` elements remain (`1 - 0 < 5`), so the claim demands `SourceExhausted`;
the code only checks whether the cursor is already past the end and
succeeds, moving the cursor to 5. -/
theorem src_skip_counterexample :
    Src.skip (⟨[(1 : ℕ)], 0⟩) 5 = .ok ⟨[1], 5⟩ ∧ [(1 : ℕ)].length - 0 < 5 :=
  ⟨by decide, by decide⟩

/-- Claim C6 (amended): `skip(n)` fails with `SourceExhausted` exactly when
the cursor is already at or past the end (`L ≤ p`), regardless of `n`;
otherwise it advances the cursor by `n` positions (possibly past the end)
without reading or validating any point. -/
theorem src_skip_spec {G : Type} [AddCommMonoid G] [DecidableEq G]
    (bs : List G) (p n : Nat) :
    (Src.skip ⟨bs, p⟩ n = .error .sourceExhausted ↔ bs.length ≤ p)
    ∧ (p < bs.length → Src.skip ⟨bs, p⟩ n = .ok ⟨bs, p + n⟩) := by
  constructor
  · constructor
    · intro h
      by_contra hlt
      rw [src_skip_of_lt bs p n (by omega)] at h
      simp at h
    · intro h
      simp [Src.skip, h]
  · intro h
    exact src_skip_of_lt bs p n h

/-- Witness for the amended C6. -/
theorem src_skip_spec_witness :
    (0 < [(1 : ℕ), 2].length) ∧ Src.skip (⟨[(1 : ℕ), 2], 0⟩) 1 = .ok ⟨[1, 2], 1⟩ :=
  ⟨by decide, (src_skip_spec [(1 : ℕ), 2] 0 1).2 (by decide)⟩

/-- Claim C7: `add_assign_mixed` fails with `SourceExhausted` when no base
remains, fails with `UnexpectedIdentity` when the next base is the point at
infinity, and otherwise mixed-adds the next base into the accumulator and
advances the cursor by one; consequently an identity point at an active
slot with nonzero digit fails the whole `multiexp` with the identity error
(shown on bases `[0]`, exponents `[2]`). -/
theorem src_addAssignMixed_spec :
    (∀ {G : Type} [AddCommMonoid G] [DecidableEq G] (bs : List G) (p : Nat) (x : G),
      (bs.length ≤ p → Src.addAssignMixed ⟨bs, p⟩ x = .error .sourceExhausted)
      ∧ (p < bs.length → bs.getD p 0 = 0 →
          Src.addAssignMixed ⟨bs, p⟩ x = .error .unexpectedIdentity)
      ∧ (p < bs.length → bs.getD p 0 ≠ 0 →
          Src.addAssignMixed ⟨bs, p⟩ x = .ok (x + bs.getD p 0, ⟨bs, p + 1⟩)))
    ∧ multiexp 4 (⟨[0], 0⟩ : Src ℕ) .full [2] = some (.error .unexpectedIdentity) := by
  constructor
  · intro G instG instE bs p x
    refine ⟨?_, ?_, ?_⟩
    · intro h
      simp [Src.addAssignMixed, h]
    · intro h hz
      simp only [Src.addAssignMixed]
      rw [if_neg (by omega), if_pos hz]
    · intro h hz
      exact src_consume_of_lt bs p x h hz
  · rw [show multiexp 4 (⟨[0], 0⟩ : Src ℕ) .full [2]
        = some (multiexpInner 4 ⟨[0], 0⟩ .full [2] 0 3 true) from rfl]
    rw [multiexpInner, dif_neg (by norm_num : ¬ (4 ≤ 0 + 3)),
      dif_neg (by norm_num : ¬ (3 = 0))]
    decide

/-- Witness for C7 on concrete sources. -/
theorem src_addAssignMixed_spec_witness :
    Src.addAssignMixed (⟨([] : List ℕ), 0⟩) 0 = .error .sourceExhausted
    ∧ Src.addAssignMixed (⟨[0], 0⟩ : Src ℕ) 5 = .error .unexpectedIdentity
    ∧ Src.addAssignMixed (⟨[3], 0⟩ : Src ℕ) 5 = .ok (8, ⟨[3], 1⟩) := by
  refine ⟨(src_addAssignMixed_spec.1 [] 0 0).1 (by decide),
    (src_addAssignMixed_spec.1 [0] 0 5).2.1 (by decide) (by decide), ?_⟩
  rw [(src_addAssignMixed_spec.1 [3] 0 5).2.2 (by decide) (by decide)]
  decide

/-- Claim C8: the invariant `total_density = number of set bits` holds for a
new tracker and is preserved by `add_element` and by every successful
`inc`; and `inc` is idempotent per index: after `inc i` succeeds, running
`inc i` again returns the tracker unchanged, so the total density is
incremented only once. -/
theorem inc_of_true (t : DensityTracker) (i : Nat) (h : t.bv[i]? = some true) :
    t.inc i = some t := by
  unfold DensityTracker.inc
  simp only [h]
  rw [if_neg (by decide : ¬ ((!true) = true))]

theorem densityTracker_invariant :
    DensityTracker.inv DensityTracker.new
    ∧ (∀ t : DensityTracker, t.inv → t.add_element.inv)
    ∧ (∀ (t : DensityTracker) (i : Nat) (t' : DensityTracker),
        t.inv → t.inc i = some t' → t'.inv)
    ∧ (∀ (t : DensityTracker) (i : Nat) (t' : DensityTracker),
        t.inc i = some t' → t'.inc i = some t') := by
  refine ⟨rfl, ?_, ?_, ?_⟩
  · intro t h
    unfold DensityTracker.inv at h ⊢
    unfold DensityTracker.add_element
    simp [List.count_append, h]
  · intro t i t' hinv hinc
    unfold DensityTracker.inc at hinc
    cases hbv : t.bv[i]? with
    | none =>
      rw [hbv] at hinc
      exact absurd hinc (by simp)
    | some b =>
      simp only [hbv] at hinc
      cases b with
      | false =>
        rw [if_pos (by decide : (!false) = true), Option.some_inj] at hinc
        subst hinc
        unfold DensityTracker.inv at hinv ⊢
        show t.total_density + 1 = List.count true (t.bv.set i true)
        rw [count_true_set t.bv i hbv]
        omega
      | true =>
        rw [if_neg (by decide : ¬ ((!true) = true)), Option.some_inj] at hinc
        subst hinc
        exact hinv
  · intro t i t' hinc
    unfold DensityTracker.inc at hinc
    cases hbv : t.bv[i]? with
    | none =>
      rw [hbv] at hinc
      exact absurd hinc (by simp)
    | some b =>
      simp only [hbv] at hinc
      cases b with
      | false =>
        rw [if_pos (by decide : (!false) = true), Option.some_inj] at hinc
        have hi : i < t.bv.length := by
          by_contra hge
          rw [List.getElem?_eq_none (by omega)] at hbv
          exact absurd hbv (by simp)
        subst hinc
        apply inc_of_true
        show (t.bv.set i true)[i]? = some true
        rw [List.getElem?_set_self hi]
      | true =>
        rw [if_neg (by decide : ¬ ((!true) = true)), Option.some_inj] at hinc
        subst hinc
        exact inc_of_true t i hbv

/-- Witness for C8: activating slot 0 once sets the invariant state
`⟨[true], 1⟩`; activating it again returns the same tracker. -/
theorem densityTracker_invariant_witness :
    DensityTracker.inv ⟨[true], 1⟩
    ∧ DensityTracker.inc ⟨[true], 1⟩ 0 = some ⟨[true], 1⟩ := by
  have h1 : DensityTracker.inc ⟨[false], 0⟩ 0 = some ⟨[true], 1⟩ := by decide
  exact ⟨densityTracker_invariant.2.2.1 ⟨[false], 0⟩ 0 ⟨[true], 1⟩ rfl h1,
    densityTracker_invariant.2.2.2 ⟨[false], 0⟩ 0 ⟨[true], 1⟩ h1⟩

/-- Claim C9: when the density map reports a known query size (the tracker
variant), `multiexp` halts (the assertion, modelled by `none`) exactly on a
mismatch with the exponent count, before any window is scheduled; a full
density map (no known size) always proceeds to the windowed computation. -/
theorem multiexp_query_size_check {G : Type} [AddCommMonoid G] [DecidableEq G]
    (numBits : Nat) (bases : Src G) (t : DensityTracker) (exps : List Nat) :
    (multiexp numBits bases (.tracker t) exps = none ↔ t.bv.length ≠ exps.length)
    ∧ multiexp numBits bases .full exps
        = some (multiexpInner numBits bases .full exps 0 (multiexpC exps.length) true) := by
  constructor
  · unfold multiexp
    simp only [DensityMap.get_query_size]
    by_cases h : t.bv.length = exps.length
    · simp [h]
    · simp [h]
  · rfl

/-- Witness for C9: a tracker of two slots against three exponents halts. -/
theorem multiexp_query_size_check_witness :
    multiexp 4 (⟨[1], 0⟩ : Src ℕ) (.tracker ⟨[true, false], 1⟩) [2, 3, 4] = none :=
  (multiexp_query_size_check 4 ⟨[1], 0⟩ ⟨[true, false], 1⟩ [2, 3, 4]).1.mpr (by decide)

/-- Claim C10: for every width `c ≥ 1` the recursion of `multiexp_inner`
(tracked by `numWindows`, which follows its recursion exactly) terminates
with `⌈NUM_BITS / c⌉` scheduled window tasks, and for every exponent count
below `2^32` (the range of the `as u32` cast) the entry point chooses a
width of at least 3 — exactly 3 below 32 exponents. -/
theorem multiexp_termination_windows :
    (∀ numBits c : Nat, 1 ≤ c → 1 ≤ numBits →
      numWindows numBits 0 c = (numBits + c - 1) / c)
    ∧ (∀ n : Nat, n < 32 → multiexpC n = 3)
    ∧ (∀ n : Nat, n < 2 ^ 32 → 3 ≤ multiexpC n) := by
  refine ⟨?_, ?_, ?_⟩
  · intro numBits c hc hnb
    have h := numWindows_eq c hc numBits 0 (by omega)
    simpa using h
  · intro n h
    simp [multiexpC, h]
  · intro n h
    exact (multiexpC_bounds n h).1

/-- Witness for C10: 255-bit scalars at width 4 give 64 windows; 5 exponents
give width 3; 100 exponents give a width of at least 3. -/
theorem multiexp_termination_windows_witness :
    numWindows 255 0 4 = 64 ∧ multiexpC 5 = 3 ∧ 3 ≤ multiexpC 100 := by
  refine ⟨?_, multiexp_termination_windows.2.1 5 (by norm_num),
    multiexp_termination_windows.2.2 100 (by norm_num)⟩
  rw [multiexp_termination_windows.1 255 4 (by norm_num) (by norm_num)]
